import Mathlib

/-!
# Verification of PlayableEnvironments utilities

Shallow embedding of three source files of the repository:

* `model/layers/adain.py` — `AffineTransformAdaIn` and `AdaIn` layers;
* `evaluation/reconstructed_camera_manipulation_dataset_creator.py` —
  output-path rewriting, first-observation broadcasting, and the
  dataset-reconstruction driver;
* `dataset/acquisition/utils/remove_camera_folder.py` — the
  directory-flattening utility and its command-line entry point.

Pure string manipulation (`os.path.normpath`, `os.path.join`,
`str.split`) is embedded character-faithfully on `String`; the
filesystem is modelled as a finite map from component-level paths to
entries; tensors are embedded as nested lists over `ℝ`.
-/

namespace PlayableEnvironments

/-! ## Embedding of posixpath primitives (os.path on POSIX)

`str.startswith` / `str.endswith` are character-level tests in Python;
we embed them through `String.data`. -/

/-- Python `s.startswith(p)`: `p` is a character-level prefix of `s`. -/
def pyStartsWith (s p : String) : Bool := p.data.isPrefixOf s.data

/-- Python `s.endswith(p)`: `p` is a character-level suffix of `s`. -/
def pyEndsWith (s p : String) : Bool := p.data.isSuffixOf s.data

/-- Character-level splitting on `'/'`, keeping empty fields, as Python's
`s.split('/')` does: `"a//b" ↦ [['a'], [], ['b']]`. -/
def splitSlashChars (l : List Char) : List (List Char) :=
  l.foldr
    (fun c acc => if c = '/' then [] :: acc else (c :: acc.headD []) :: acc.tail)
    [[]]

/-- Python `s.split('/')` (the repository always splits on `os.sep = '/'`). -/
def pySplitSlash (s : String) : List String :=
  (splitSlashChars s.data).map String.mk

/-- Python `'/'.join(parts)`. -/
def joinSlash : List String → String
  | [] => ""
  | [x] => x
  | x :: y :: xs => x ++ "/" ++ joinSlash (y :: xs)

/-- Python `'/' * n`. -/
def repSlash : Nat → String
  | 0 => ""
  | n + 1 => "/" ++ repSlash n

/-- One step of the component-processing loop of `posixpath.normpath`:
```
for comp in comps:
    if comp in ('', '.'): continue
    if (comp != '..' or (not initial_slashes and not new_comps) or
         (new_comps and new_comps[-1] == '..')):
        new_comps.append(comp)
    elif new_comps:
        new_comps.pop()
```
`initialSlashes` is the Python `initial_slashes` (0, 1 or 2). -/
def normpathStep (initialSlashes : Nat) (newComps : List String) (comp : String) :
    List String :=
  if comp = "" ∨ comp = "." then newComps
  else if comp ≠ ".." ∨ (initialSlashes = 0 ∧ newComps = []) ∨
      (newComps ≠ [] ∧ newComps.getLast? = some "..") then newComps ++ [comp]
  else if newComps ≠ [] then newComps.dropLast
  else newComps

/-- Embedding of `posixpath.normpath` (the `os.path.normpath` used by the
repository): collapses `//`, `.` and `..` components; empty path becomes
`"."`; one or two leading slashes are preserved, three or more collapse
to one. -/
def normpath (path : String) : String :=
  if path = "" then "."
  else
    let initialSlashes : Nat :=
      if pyStartsWith path "//" ∧ ¬ pyStartsWith path "///" then 2
      else if pyStartsWith path "/" then 1 else 0
    let comps := pySplitSlash path
    let newComps := comps.foldl (normpathStep initialSlashes) []
    let joined := joinSlash newComps
    let out := repSlash initialSlashes ++ joined
    if out = "" then "." else out

/-- Embedding of the two-argument body of `posixpath.join`:
```
if b.startswith(sep): path = b
elif not path or path.endswith(sep): path += b
else: path += sep + b
```
-/
def joinTwo (path b : String) : String :=
  if pyStartsWith b "/" then b
  else if path = "" ∨ pyEndsWith path "/" then path ++ b
  else path ++ "/" ++ b

/-- `os.path.join(*parts)` for a non-empty list of parts: folds `joinTwo`
from the first part (the empty-list case cannot arise in the source,
where the argument is the result of `str.split`, which is non-empty). -/
def joinAll : List String → String
  | [] => ""
  | h :: t => t.foldl joinTwo h

/-- Python `lst[-n:]`: the last `min n (length)` elements. -/
def lastN (n : Nat) (l : List α) : List α := l.drop (l.length - n)

/-! ## `ReconstructedCameraManipulationDatasetCreator.output_paths_from_observations_paths`

The numpy string array is modelled as a `List String`; because the
source mutates an array in place through `np.nditer(..., readwrite)`,
arrays live in a store (an allocation-indexed list of arrays) so that
"the argument is not modified" is a real statement about aliasing. -/

/-- A store of numpy string arrays, addressed by allocation index. -/
abbrev Store := List (List String)

/-- Allocation of a fresh array holding `a`; returns the new store and
the reference to the fresh array. Models `ndarray.copy()`'s allocation. -/
def Store.alloc (σ : Store) (a : List String) : Store × Nat :=
  (σ ++ [a], σ.length)

/-- Contents of the array referenced by `r` (empty if dangling). -/
def Store.read (σ : Store) (r : Nat) : List String :=
  σ.getD r []

/-- The `np.nditer(arr, op_flags=['readwrite'])` loop writing `f` of each
entry back into the array `r` holds. -/
def Store.writeAll (σ : Store) (r : Nat) (f : String → String) : Store :=
  σ.set r ((Store.read σ r).map f)

/-- Body of the per-entry loop of `output_paths_from_observations_paths`:
```
path = os.path.normpath(current_path.item()).split(os.sep)[-3:]
translated_path = os.path.join(self.output_root, os.path.join(*path))
```
-/
def translate_path (output_root : String) (p : String) : String :=
  let path := lastN 3 (pySplitSlash (normpath p))
  joinTwo output_root (joinAll path)

/-- `ReconstructedCameraManipulationDatasetCreator.output_paths_from_observations_paths`:
copies the argument array, rewrites every entry of the copy in place,
and returns (a reference to) the copy. `output_root` is
`self.output_root`; `arg` references the argument array in `σ`. -/
def output_paths_from_observations_paths (output_root : String) (σ : Store) (arg : Nat) :
    Store × Nat :=
  let allocated := Store.alloc σ (Store.read σ arg)
  let σ₁ := allocated.1
  let copied := allocated.2
  (Store.writeAll σ₁ copied (translate_path output_root), copied)

/-- Spec-side formula for one path, following the spec's words: "joining
the configured output root with exactly the last three components of the
normalized input path (sequence_name/camera_name/file_name)". -/
def spec_output_path (output_root c₁ c₂ c₃ : String) : String :=
  output_root ++ "/" ++ c₁ ++ "/" ++ c₂ ++ "/" ++ c₃

/-- A path component is clean when it is non-empty and slash-free. -/
def cleanComponent (c : String) : Prop := c ≠ "" ∧ '/' ∉ c.data

instance (c : String) : Decidable (cleanComponent c) := by
  unfold cleanComponent; infer_instance

/-! ## Filesystem model for `remove_camera_folder`

Paths are modelled at component granularity: `os.path.join(path, name)`
appends the component `name`, `os.path.basename` takes the last
component (the source only ever joins a directory path with a slash-free
entry name). A filesystem is a finite map from paths to file contents
together with the set of directories; `glob.glob(dir + "/*")` lists the
entries directly inside `dir` whose names do not start with a dot (the
`*` pattern of `glob` does not match hidden entries), and returns
nothing when `dir` does not exist. -/

abbrev FsPath := List String

/-- Errors raised by the filesystem calls the source makes. -/
inductive FsError where
  /-- `os.rename` target exists and is a directory (`EISDIR`/`ENOTEMPTY`). -/
  | isDirectory
  /-- missing entry (`ENOENT`). -/
  | noEntry
  deriving Repr, DecidableEq

structure FS where
  files : List (FsPath × Nat)
  dirs : List FsPath
  deriving Repr, DecidableEq

def FS.isFile (fs : FS) (p : FsPath) : Bool := fs.files.any (fun e => e.1 = p)

def FS.isDir (fs : FS) (p : FsPath) : Bool := fs.dirs.contains p

def FS.fileContent (fs : FS) (p : FsPath) : Option Nat :=
  (fs.files.find? (fun e => e.1 = p)).map (fun e => e.2)

/-- The name of `p` when `p` is directly inside directory `d`. -/
def childName (d : FsPath) (p : FsPath) : Option String :=
  if p.dropLast = d then p.getLast? else none

/-- Names of the entries directly inside `d`. -/
def FS.childNames (fs : FS) (d : FsPath) : List String :=
  (fs.files.map Prod.fst ++ fs.dirs).filterMap (childName d)

/-- `glob.glob(os.path.join(d, "*"))`: full paths of the non-hidden
entries directly inside `d`; empty when `d` is not a directory. -/
def FS.globStar (fs : FS) (d : FsPath) : List FsPath :=
  if fs.isDir d then
    ((fs.childNames d).filter (fun n => ¬ pyStartsWith n ".")).map (fun n => d ++ [n])
  else []

/-- `os.path.basename` at component granularity. -/
def basename (p : FsPath) : String := p.getLastD ""

/-- Replants a path from under `old` to under `new`. -/
def reroot (old new p : FsPath) : FsPath :=
  if old.isPrefixOf p then new ++ p.drop old.length else p

/-- `os.rename(old, new)`. A file is moved (silently overwriting a file
at `new`, as POSIX `rename(2)` does) unless `new` is an existing
directory; a directory is moved together with its subtree unless `new`
exists; a missing `old` is an error. -/
def FS.rename (fs : FS) (old new : FsPath) : Except FsError FS :=
  if fs.isFile old then
    if fs.isDir new then .error .isDirectory
    else
      match fs.fileContent old with
      | some c =>
          .ok ⟨(fs.files.filter (fun e => e.1 ≠ old ∧ e.1 ≠ new)) ++ [(new, c)], fs.dirs⟩
      | none => .error .noEntry
  else if fs.isDir old then
    if fs.isFile new ∨ fs.isDir new then .error .isDirectory
    else
      .ok ⟨fs.files.map (fun e => (reroot old new e.1, e.2)), fs.dirs.map (reroot old new)⟩
  else .error .noEntry

/-- `shutil.rmtree(d)`: removes the directory `d` with everything below
it; raises when `d` is missing. -/
def FS.rmtree (fs : FS) (d : FsPath) : Except FsError FS :=
  if fs.isDir d then
    .ok ⟨fs.files.filter (fun e => ¬ d.isPrefixOf e.1),
      fs.dirs.filter (fun p => ¬ d.isPrefixOf p)⟩
  else .error .noEntry

/-- `camera_folder_name = "00000"` in `remove_camera_folder`. -/
def camera_folder_name : String := "00000"

/-- The `for current_file in all_files:` loop of `remove_camera_folder`:
renames each listed entry to `os.path.join(path, basename(entry))`,
stopping at (and propagating) the first error. -/
def renameLoop (path : FsPath) : List FsPath → FS → Except FsError FS
  | [], fs => .ok fs
  | f :: rest, fs =>
    match FS.rename fs f (path ++ [basename f]) with
    | .ok fs' => renameLoop path rest fs'
    | .error e => .error e

/-- `remove_camera_folder(path)`: lists the camera folder
`camera_folder_path = os.path.join(path, "00000")` with `glob`, moves
every listed entry to `os.path.join(path, basename(entry))`, then
removes the camera folder tree with `shutil.rmtree`. -/
def remove_camera_folder (fs : FS) (path : FsPath) : Except FsError FS :=
  match renameLoop path (fs.globStar (path ++ [camera_folder_name])) fs with
  | .ok fs' => fs'.rmtree (path ++ [camera_folder_name])
  | .error e => .error e

/-- A filesystem whose camera folder holds a single hidden file. -/
def hiddenFileFS : FS :=
  ⟨[(["v", "00000", ".hidden"], 7)], [["v"], ["v", "00000"]]⟩

/-- A filesystem where moving `v/00000/x` fails because `v/x` is an
existing directory. -/
def renameFailFS : FS :=
  ⟨[(["v", "00000", "x"], 1)], [["v"], ["v", "00000"], ["v", "x"]]⟩

/-- A filesystem whose camera folder holds two ordinary files. -/
def twoFileFS : FS :=
  ⟨[(["v", "00000", "img1"], 1), (["v", "00000", "img2"], 2)],
    [["v"], ["v", "00000"]]⟩

/-! ## Effect trace of `reconstruct_dataset` -/

/-- Observable effects of one run of
`ReconstructedCameraManipulationDatasetCreator.reconstruct_dataset`. -/
inductive EvalEvent where
  /-- model inference on batch `i` (`model(...)` and
  `render_full_frame_from_scene_encoding`). -/
  | inference (i : Nat)
  /-- `output_paths_from_observations_paths` on batch `i`. -/
  | rewritePaths (i : Nat)
  /-- `make_folders_for_output` on batch `i`. -/
  | makeFolders (i : Nat)
  /-- `image_helper.save_reconstructed_images_to_paths` on batch `i`. -/
  | saveImages (i : Nat)
  /-- `subprocess.run(["rsync", "-a", "--ignore-times", ...])`. -/
  | rsync
  deriving Repr, DecidableEq

/-- Effects of one iteration of the
`for batch_idx, batch in enumerate(self.dataloader)` loop, in program
order: inference, output-path rewriting, output-folder creation, image
writing. -/
def batchEvents (i : Nat) : List EvalEvent :=
  [.inference i, .rewritePaths i, .makeFolders i, .saveImages i]

/-- The effect trace of `reconstruct_dataset` on a dataloader of
`batchesCount` batches: the batch loop runs to completion, then the
metadata is synced once with rsync. -/
def reconstruct_dataset_trace (batchesCount : Nat) : List EvalEvent :=
  (List.range batchesCount).foldl (fun acc i => acc ++ batchEvents i) [] ++ [.rsync]

/-! ## Command-line interface of `remove_camera_folder.py`

The `__main__` block builds `argparse.ArgumentParser()` with the single
option `add_argument("--directory", type=str, required=True)`. The
embedding covers the exact spellings `--directory VALUE` and
`--directory=VALUE` (abbreviated option names and the automatic
`--help` option are outside the model); `argparse` refuses a following
token starting with `-` as the option's value, rejects unrecognized
arguments, and errors when the required option is missing. -/

def parse_directory_args : List String → Option String → Except String String
  | [], acc =>
    match acc with
    | some v => .ok v
    | none => .error "the following arguments are required: --directory"
  | a :: rest, acc =>
    if a = "--directory" then
      match rest with
      | [] => .error "argument --directory: expected one argument"
      | v :: rest' =>
        if pyStartsWith v "-" then .error "argument --directory: expected one argument"
        else parse_directory_args rest' (some v)
    else if pyStartsWith a "--directory=" then
      parse_directory_args rest (some (String.drop a 12))
    else .error ("unrecognized arguments: " ++ a)

/-- `parser.parse_args(args)` for the script's parser: the parsed
`--directory` value, or a parse error (on which `argparse` exits the
script). -/
def parseArgs (args : List String) : Except String String :=
  parse_directory_args args none

/-! ## `use_first_observation`

A tensor of shape `(batch_size, observations_count, ...)` is modelled as
a list of rows, one per batch element, each row listing the
`observations_count` entries along dimension 1 (an entry stands for the
whole trailing-dimensions slice). `tensor.size(1)` is the length of the
first row; `tensor[:, :1]` takes the first entry of every row;
`tensor.repeat([1, observations_count, 1, ...])` tiles every row
`observations_count` times along dimension 1. -/

def use_first_observation (t : List (List α)) : List (List α) :=
  let observations_count := (t.headD []).length
  let sliced := t.map (fun row => row.take 1)
  sliced.map (fun row => (List.replicate observations_count row).join)

/-! ## Tensors over ℝ: the `AdaIn` layers

Tensors of shape `(batch_size, features)` are modelled as lists of rows
over `ℝ` (idealized real arithmetic in place of IEEE floats).
`nn.BatchNorm1d(in_features, affine=False)` in training mode normalizes
every feature column to zero mean and unit variance with the biased
batch statistics and the default `eps = 1e-5`. -/

/-- `List.map` with the position also passed to the function, starting
at index `i`. -/
def mapWithIdx {α β : Type} (i : Nat) (f : Nat → α → β) : List α → List β
  | [] => []
  | x :: xs => f i x :: mapWithIdx (i + 1) f xs

noncomputable section

/-- `torch.nn.BatchNorm1d`'s default `eps`. -/
def batchNormEps : ℝ := 1e-5

/-- Mean of feature column `j` over the batch. -/
def colMean (x : List (List ℝ)) (j : Nat) : ℝ :=
  (x.map (fun r => r.getD j 0)).sum / x.length

/-- Biased variance of feature column `j` over the batch. -/
def colVar (x : List (List ℝ)) (j : Nat) : ℝ :=
  (x.map (fun r => (r.getD j 0 - colMean x j) ^ 2)).sum / x.length

/-- `self.normalization(input)` for
`nn.BatchNorm1d(in_features, affine=False)`: training-mode per-column
standardization `(v - mean) / sqrt(var + eps)`. -/
def batchNorm1d (x : List (List ℝ)) : List (List ℝ) :=
  x.map (fun r =>
    mapWithIdx 0 (fun j v => (v - colMean x j) / Real.sqrt (colVar x j + batchNormEps)) r)

/-- Elementwise product of two same-shape tensors. -/
def tmul (a b : List (List ℝ)) : List (List ℝ) :=
  List.zipWith (List.zipWith (· * ·)) a b

/-- Elementwise sum of two same-shape tensors. -/
def tadd (a b : List (List ℝ)) : List (List ℝ) :=
  List.zipWith (List.zipWith (· + ·)) a b

/-- `AdaIn.forward`:
```
result = self.normalization(input)
result = result * scale + bias
```
-/
def AdaIn_forward (input scale bias : List (List ℝ)) : List (List ℝ) :=
  let result := batchNorm1d input
  tadd (tmul result scale) bias

/-- `nn.Linear(style_features_count, 2 * in_features)` applied to one
row: entry `j` of the output is `⟨W[j], x⟩ + b[j]`. -/
def linearRow (W : List (List ℝ)) (b : List ℝ) (x : List ℝ) : List ℝ :=
  List.zipWith (fun wrow bj => (List.zipWith (· * ·) wrow x).sum + bj) W b

/-- `AffineTransformAdaIn.forward`:
```
encoded_style = self.affine_transform(style)
scale, bias = encoded_style.chunk(2, 1)
output = self.ada_in(input, scale, bias)
```
`chunk(2, 1)` on rows of length `2 * in_features` yields the first and
the last `in_features` entries. -/
def AffineTransformAdaIn_forward (in_features : Nat) (W : List (List ℝ)) (b : List ℝ)
    (input style : List (List ℝ)) : List (List ℝ) :=
  let encoded_style := style.map (linearRow W b)
  let scale := encoded_style.map (fun r => r.take in_features)
  let bias := encoded_style.map (fun r => r.drop in_features)
  AdaIn_forward input scale bias

/-- The computation asserted by the claim's reading of the spec
sentence: the style-conditioned affine transformation applied to the
activations first, batch normalization after. -/
def claimed_AffineTransformAdaIn_forward (in_features : Nat) (W : List (List ℝ))
    (b : List ℝ) (input style : List (List ℝ)) : List (List ℝ) :=
  let encoded_style := style.map (linearRow W b)
  let scale := encoded_style.map (fun r => r.take in_features)
  let bias := encoded_style.map (fun r => r.drop in_features)
  batchNorm1d (tadd (tmul input scale) bias)

/-- Python slice assignment `l[lo:hi] = v` (indices clamped). -/
def sliceAssign (l : List ℝ) (lo hi : Nat) (v : ℝ) : List ℝ :=
  mapWithIdx 0 (fun i x => if lo ≤ i ∧ i < hi then v else x) l

/-- The bias initialization in `AffineTransformAdaIn.__init__`:
```
self.affine_transform.bias.data[:in_features] = 1
self.affine_transform.bias.data[in_features:] = 0
```
applied to the bias vector `b0` that `nn.Linear` created (whose length
is `2 * in_features`). -/
def affine_transform_bias_init (in_features : Nat) (b0 : List ℝ) : List ℝ :=
  let b1 := sliceAssign b0 0 in_features 1
  sliceAssign b1 in_features b1.length 0

end

/-! ## Theorems -/

theorem slash_isPrefixOf_false_of_head {x : Char} {xs : List Char} (h : x ≠ '/') :
    List.isPrefixOf ['/'] (x :: xs) = false := by
  simp [List.isPrefixOf, h.symm]

theorem slash_isPrefixOf_false_of_not_mem {l : List Char} (h : '/' ∉ l) :
    List.isPrefixOf ['/'] l = false := by
  cases l with
  | nil => rfl
  | cons x xs =>
    exact slash_isPrefixOf_false_of_head (fun hx => h (hx ▸ List.mem_cons_self x xs))

theorem string_data_ne_nil {s : String} (h : s ≠ "") : s.data ≠ [] := by
  intro hd
  exact h (String.ext (hd.trans rfl))

theorem clean_not_startsWith_slash {c : String} (h : cleanComponent c) :
    pyStartsWith c "/" = false := by
  show List.isPrefixOf ['/'] c.data = false
  exact slash_isPrefixOf_false_of_not_mem h.2

theorem clean_not_endsWith_slash {c : String} (h : cleanComponent c) :
    pyEndsWith c "/" = false := by
  show List.isSuffixOf ['/'] c.data = false
  simp only [List.isSuffixOf]
  exact slash_isPrefixOf_false_of_not_mem (by simpa using h.2)

theorem append_slash_ne_empty (a b : String) : a ++ "/" ++ b ≠ "" := by
  intro h
  have := congrArg String.length h
  simp only [String.length_append] at this
  have h1 : String.length "/" = 1 := rfl
  have h0 : String.length "" = 0 := rfl
  omega

theorem pyStartsWith_slash_append_false {a : String} (b : String)
    (ha : a ≠ "") (h : '/' ∉ a.data) : pyStartsWith (a ++ b) "/" = false := by
  show List.isPrefixOf ['/'] (a ++ b).data = false
  obtain ⟨x, xs, hx⟩ := List.exists_cons_of_ne_nil (string_data_ne_nil ha)
  have hxa : x ∈ a.data := hx ▸ List.mem_cons_self x xs
  rw [String.data_append, hx, List.cons_append]
  exact slash_isPrefixOf_false_of_head (fun he => h (he ▸ hxa))

theorem pyEndsWith_slash_append_false (a : String) {b : String}
    (hb : b ≠ "") (h : '/' ∉ b.data) : pyEndsWith (a ++ "/" ++ b) "/" = false := by
  show List.isSuffixOf ['/'] (a ++ "/" ++ b).data = false
  simp only [List.isSuffixOf]
  have hrev : b.data.reverse ≠ [] := by
    simpa using string_data_ne_nil hb
  obtain ⟨y, ys, hy⟩ := List.exists_cons_of_ne_nil hrev
  have hyb : y ∈ b.data := by
    rw [← List.mem_reverse, hy]
    exact List.mem_cons_self y ys
  rw [String.data_append, String.data_append, List.reverse_append, hy, List.cons_append]
  exact slash_isPrefixOf_false_of_head (fun he => h (he ▸ hyb))

theorem joinTwo_clean {a b : String} (ha : a ≠ "") (hea : pyEndsWith a "/" = false)
    (hsb : pyStartsWith b "/" = false) : joinTwo a b = a ++ "/" ++ b := by
  simp [joinTwo, hsb, ha, hea]

/-- `os.path.join` of the output root with three clean components is the
naive slash-join. -/
theorem translate_path_eq_spec {root p c₁ c₂ c₃ : String}
    (hroot : root ≠ "") (hroot2 : pyEndsWith root "/" = false)
    (hsplit : lastN 3 (pySplitSlash (normpath p)) = [c₁, c₂, c₃])
    (h₁ : cleanComponent c₁) (h₂ : cleanComponent c₂) (h₃ : cleanComponent c₃) :
    translate_path root p = spec_output_path root c₁ c₂ c₃ := by
  unfold translate_path
  rw [hsplit]
  show joinTwo root (joinAll [c₁, c₂, c₃]) = _
  have hj1 : joinAll [c₁, c₂, c₃] = c₁ ++ "/" ++ c₂ ++ "/" ++ c₃ := by
    show joinTwo (joinTwo c₁ c₂) c₃ = _
    rw [joinTwo_clean h₁.1 (clean_not_endsWith_slash h₁) (clean_not_startsWith_slash h₂),
      joinTwo_clean (append_slash_ne_empty c₁ c₂)
        (pyEndsWith_slash_append_false c₁ h₂.1 h₂.2) (clean_not_startsWith_slash h₃)]
  rw [hj1, joinTwo_clean hroot hroot2, spec_output_path]
  · simp [String.append_assoc]
  · have : c₁ ++ "/" ++ c₂ ++ "/" ++ c₃ = c₁ ++ ("/" ++ c₂ ++ "/" ++ c₃) := by
      simp [String.append_assoc]
    rw [this]
    exact pyStartsWith_slash_append_false _ h₁.1 h₁.2

theorem Store.read_append_self (σ : Store) (a : List String) :
    Store.read (σ ++ [a]) σ.length = a := by
  unfold Store.read
  rw [List.getD_eq_getElem?_getD, List.getElem?_append_right (Nat.le_refl _)]
  simp

theorem Store.read_append_lt (σ : Store) (a : List String) {i : Nat}
    (h : i < σ.length) : Store.read (σ ++ [a]) i = Store.read σ i := by
  unfold Store.read
  simp only [List.getD_eq_getElem?_getD]
  rw [List.getElem?_append_left h]

theorem Store.read_out_of_range (σ : Store) {i : Nat} (h : σ.length ≤ i) :
    Store.read σ i = [] := by
  unfold Store.read
  rw [List.getD_eq_getElem?_getD, List.getElem?_eq_none h]
  rfl

theorem Store.read_writeAll_ne (σ : Store) {r i : Nat} (f : String → String)
    (h : r ≠ i) : Store.read (Store.writeAll σ r f) i = Store.read σ i := by
  unfold Store.writeAll Store.read
  simp only [List.getD_eq_getElem?_getD]
  rw [List.getElem?_set_ne h]

theorem Store.read_writeAll_self (σ : Store) {r : Nat} (f : String → String)
    (h : r < σ.length) :
    Store.read (Store.writeAll σ r f) r = (Store.read σ r).map f := by
  unfold Store.writeAll Store.read
  simp only [List.getD_eq_getElem?_getD]
  rw [List.getElem?_set_self (by simpa using h)]
  rfl

/-- The array returned by `output_paths_from_observations_paths` holds the
translation of every entry of the argument array. -/
theorem read_output_paths_result (output_root : String) (σ : Store) (arg : Nat) :
    Store.read (output_paths_from_observations_paths output_root σ arg).1
      (output_paths_from_observations_paths output_root σ arg).2
      = (Store.read σ arg).map (translate_path output_root) := by
  show Store.read
      (Store.writeAll (σ ++ [Store.read σ arg]) σ.length (translate_path output_root))
      σ.length = _
  rw [Store.read_writeAll_self _ _ (by simp), Store.read_append_self]

theorem getD_map_lt {β γ : Type} (d₁ : β) (d₂ : γ) {l : List β} {f : β → γ}
    {i : Nat} (h : i < l.length) : (l.map f).getD i d₂ = f (l.getD i d₁) := by
  simp [List.getD_eq_getElem?_getD, List.getElem?_map, List.getElem?_eq_getElem h]

/-- C2: for every entry of the observations-path array, the returned array
holds, at the same position, the configured output root joined with
exactly the last three components (sequence name, camera name, file
name) of the normalized input path. -/
theorem output_paths_from_observations_paths_correct
    (output_root : String) (σ : Store) (arg : Nat)
    (hroot : output_root ≠ "") (hroot2 : pyEndsWith output_root "/" = false) :
    (Store.read (output_paths_from_observations_paths output_root σ arg).1
        (output_paths_from_observations_paths output_root σ arg).2).length
      = (Store.read σ arg).length ∧
    ∀ i c₁ c₂ c₃, i < (Store.read σ arg).length →
      lastN 3 (pySplitSlash (normpath ((Store.read σ arg).getD i ""))) = [c₁, c₂, c₃] →
      cleanComponent c₁ → cleanComponent c₂ → cleanComponent c₃ →
      (Store.read (output_paths_from_observations_paths output_root σ arg).1
          (output_paths_from_observations_paths output_root σ arg).2).getD i ""
        = spec_output_path output_root c₁ c₂ c₃ := by
  rw [read_output_paths_result]
  constructor
  · simp
  · intro i c₁ c₂ c₃ hi hsplit h₁ h₂ h₃
    rw [getD_map_lt "" "" hi]
    exact translate_path_eq_spec hroot hroot2 hsplit h₁ h₂ h₃

theorem output_paths_correct_witness :
    ("out/test" : String) ≠ "" ∧
    (Store.read
        (output_paths_from_observations_paths "out/test"
          [["data/videos/seq1/cam0/img.png"]] 0).1
        (output_paths_from_observations_paths "out/test"
          [["data/videos/seq1/cam0/img.png"]] 0).2).getD 0 ""
      = spec_output_path "out/test" "seq1" "cam0" "img.png" :=
  ⟨by decide,
    (output_paths_from_observations_paths_correct "out/test"
        [["data/videos/seq1/cam0/img.png"]] 0 (by decide) (by decide)).2
      0 "seq1" "cam0" "img.png" (by decide) (by decide) (by decide) (by decide)
      (by decide)⟩

/-- C8: the call does not modify the argument array — the store still
holds the original contents at the argument's reference after the call —
and the returned array is a fresh one, distinct from the argument. -/
theorem output_paths_from_observations_paths_frame
    (output_root : String) (σ : Store) (arg : Nat) :
    Store.read (output_paths_from_observations_paths output_root σ arg).1 arg
      = Store.read σ arg ∧
    (arg < List.length σ →
      (output_paths_from_observations_paths output_root σ arg).2 ≠ arg) := by
  constructor
  · show Store.read
        (Store.writeAll (σ ++ [Store.read σ arg]) σ.length (translate_path output_root))
        arg = _
    rcases Nat.lt_trichotomy arg σ.length with hlt | heq | hgt
    · rw [Store.read_writeAll_ne _ _ (Nat.ne_of_gt hlt), Store.read_append_lt _ _ hlt]
    · subst heq
      rw [Store.read_writeAll_self _ _ (by simp), Store.read_append_self,
        Store.read_out_of_range σ (Nat.le_refl _)]
      rfl
    · rw [Store.read_writeAll_ne _ _ (Nat.ne_of_lt hgt),
        Store.read_out_of_range _ (by simpa using hgt),
        Store.read_out_of_range _ (by omega)]
  · intro h
    exact Nat.ne_of_gt h

theorem output_paths_frame_witness :
    Store.read (output_paths_from_observations_paths "out/test" [["a/b/c"]] 0).1 0
      = Store.read [["a/b/c"]] 0 ∧
    (output_paths_from_observations_paths "out/test" [["a/b/c"]] 0).2 ≠ 0 :=
  ⟨(output_paths_from_observations_paths_frame "out/test" [["a/b/c"]] 0).1,
    (output_paths_from_observations_paths_frame "out/test" [["a/b/c"]] 0).2
      (by decide)⟩

/-! ### Facts about the filesystem model -/

theorem isFile_iff_exists {fs : FS} {p : FsPath} :
    fs.isFile p = true ↔ ∃ c, (p, c) ∈ fs.files := by
  unfold FS.isFile
  simp only [List.any_eq_true, decide_eq_true_eq]
  constructor
  · rintro ⟨e, he, h1⟩
    refine ⟨e.2, ?_⟩
    rw [← h1]
    exact he
  · rintro ⟨c, hc⟩
    exact ⟨(p, c), hc, rfl⟩

theorem fileContent_exists {fs : FS} {p : FsPath} (h : fs.isFile p = true) :
    ∃ c, fs.fileContent p = some c := by
  unfold FS.isFile at h
  unfold FS.fileContent
  rw [List.any_eq_true] at h
  obtain ⟨e, he, hp⟩ := h
  have : (fs.files.find? (fun e => e.1 = p)).isSome := by
    rw [List.find?_isSome]
    exact ⟨e, he, hp⟩
  obtain ⟨e', he'⟩ := Option.isSome_iff_exists.mp this
  exact ⟨e'.2, by rw [he']; rfl⟩

/-- Successful file rename, spelled out. -/
theorem rename_file_ok {fs : FS} {old new : FsPath} {c : Nat}
    (hs : fs.isFile old = true) (ht : fs.isDir new = false)
    (hc : fs.fileContent old = some c) :
    fs.rename old new
      = .ok ⟨(fs.files.filter (fun e => e.1 ≠ old ∧ e.1 ≠ new)) ++ [(new, c)],
          fs.dirs⟩ := by
  unfold FS.rename
  rw [hs, ht, hc]
  simp

theorem isFile_after_rename_new {fs : FS} {old new : FsPath} {c : Nat} :
    FS.isFile ⟨(fs.files.filter (fun e => e.1 ≠ old ∧ e.1 ≠ new)) ++ [(new, c)],
      fs.dirs⟩ new = true := by
  rw [isFile_iff_exists]
  exact ⟨c, by simp⟩

theorem isFile_after_rename_other {fs : FS} {old new q : FsPath} {c : Nat}
    (h1 : q ≠ old) (h2 : q ≠ new) :
    FS.isFile ⟨(fs.files.filter (fun e => e.1 ≠ old ∧ e.1 ≠ new)) ++ [(new, c)],
      fs.dirs⟩ q = fs.isFile q := by
  rcases hq : fs.isFile q with _ | _
  · rw [← Bool.not_eq_true] at hq ⊢
    rw [isFile_iff_exists] at hq ⊢
    rintro ⟨d, hd⟩
    simp only [List.mem_append, List.mem_filter] at hd
    rcases hd with ⟨hmem, _⟩ | hnew
    · exact hq ⟨d, hmem⟩
    · exact h2 (congrArg Prod.fst (List.mem_singleton.mp hnew))
  · rw [isFile_iff_exists] at hq ⊢
    obtain ⟨d, hd⟩ := hq
    refine ⟨d, ?_⟩
    simp only [List.mem_append, List.mem_filter]
    exact Or.inl ⟨hd, by simp [h1, h2]⟩

theorem isDir_congr {fs fs' : FS} (h : fs'.dirs = fs.dirs) (p : FsPath) :
    fs'.isDir p = fs.isDir p := by
  unfold FS.isDir
  rw [h]

/-- The rename loop of `remove_camera_folder`, run on distinct child
names of the camera folder, succeeds and moves every child directly
under `path`, leaving the directory set and all unrelated files
untouched. -/
theorem renameLoop_ok (path : FsPath) (ns : List String) (fs : FS)
    (hnd : ns.Nodup)
    (hsrc : ∀ n ∈ ns, fs.isFile (path ++ [camera_folder_name] ++ [n]) = true)
    (htgt : ∀ n ∈ ns, fs.isDir (path ++ [n]) = false) :
    ∃ fs' : FS,
      renameLoop path (ns.map (fun n => path ++ [camera_folder_name] ++ [n])) fs
        = .ok fs' ∧
      fs'.dirs = fs.dirs ∧
      (∀ n ∈ ns, fs'.isFile (path ++ [n]) = true) ∧
      (∀ q : FsPath,
        (∀ n ∈ ns, q ≠ path ++ [camera_folder_name] ++ [n] ∧ q ≠ path ++ [n]) →
        fs'.isFile q = fs.isFile q) := by
  induction ns generalizing fs with
  | nil => exact ⟨fs, rfl, rfl, by simp, fun q _ => rfl⟩
  | cons n rest ih =>
    have hsrc_n := hsrc n (List.mem_cons_self n rest)
    have htgt_n := htgt n (List.mem_cons_self n rest)
    obtain ⟨c, hc⟩ := fileContent_exists hsrc_n
    have hbase : basename (path ++ [camera_folder_name] ++ [n]) = n := by
      unfold basename
      exact List.getLastD_concat _ _ _
    have hlen_ne : ∀ m m' : String,
        path ++ [camera_folder_name] ++ [m] ≠ path ++ [m'] := by
      intro m m' h
      have := congrArg List.length h
      simp at this
    set fs₁ : FS :=
      ⟨(fs.files.filter (fun e =>
          e.1 ≠ path ++ [camera_folder_name] ++ [n] ∧ e.1 ≠ path ++ [n])) ++
        [(path ++ [n], c)], fs.dirs⟩ with hfs₁
    have hdirs₁ : fs₁.dirs = fs.dirs := rfl
    have hstep : fs.rename (path ++ [camera_folder_name] ++ [n]) (path ++ [n])
        = .ok fs₁ := rename_file_ok hsrc_n htgt_n hc
    have hsrc₁ : ∀ m ∈ rest, fs₁.isFile (path ++ [camera_folder_name] ++ [m]) = true := by
      intro m hm
      have hne1 : path ++ [camera_folder_name] ++ [m]
          ≠ path ++ [camera_folder_name] ++ [n] := by
        intro h
        have := List.append_cancel_left h
        have hmn : m = n := by simpa using this
        exact (List.nodup_cons.mp hnd).1 (hmn ▸ hm)
      rw [hfs₁, isFile_after_rename_other hne1 (hlen_ne _ _)]
      exact hsrc m (List.mem_cons_of_mem n hm)
    have htgt₁ : ∀ m ∈ rest, fs₁.isDir (path ++ [m]) = false := by
      intro m hm
      rw [isDir_congr hdirs₁]
      exact htgt m (List.mem_cons_of_mem n hm)
    obtain ⟨fs', hloop, hdirs', hmoved, hframe⟩ :=
      ih fs₁ (List.nodup_cons.mp hnd).2 hsrc₁ htgt₁
    refine ⟨fs', ?_, hdirs'.trans hdirs₁, ?_, ?_⟩
    · rw [List.map_cons]
      show (match fs.rename (path ++ [camera_folder_name] ++ [n])
          (path ++ [basename (path ++ [camera_folder_name] ++ [n])]) with
        | .ok fs' => renameLoop path
            (rest.map (fun n => path ++ [camera_folder_name] ++ [n])) fs'
        | .error e => .error e) = .ok fs'
      rw [hbase, hstep]
      exact hloop
    · intro m hm
      rcases List.mem_cons.mp hm with rfl | hm'
      · have hq : ∀ m' ∈ rest,
            path ++ [m] ≠ path ++ [camera_folder_name] ++ [m'] ∧
            path ++ [m] ≠ path ++ [m'] := by
          intro m' hm'
          refine ⟨fun h => hlen_ne m' m h.symm, fun h => ?_⟩
          have : m = m' := by simpa using List.append_cancel_left h
          exact (List.nodup_cons.mp hnd).1 (this ▸ hm')
        rw [hframe _ hq, hfs₁]
        exact isFile_after_rename_new
      · exact hmoved m hm'
    · intro q hq
      have hqrest : ∀ m ∈ rest,
          q ≠ path ++ [camera_folder_name] ++ [m] ∧ q ≠ path ++ [m] :=
        fun m hm => hq m (List.mem_cons_of_mem n hm)
      have hqn := hq n (List.mem_cons_self n rest)
      rw [hframe _ hqrest, hfs₁, isFile_after_rename_other hqn.1 hqn.2]

theorem childNames_are_files {fs : FS} {path : FsPath}
    (hnosub : ∀ p ∈ fs.dirs, p.dropLast ≠ path ++ [camera_folder_name]) :
    ∀ n ∈ fs.childNames (path ++ [camera_folder_name]),
      fs.isFile (path ++ [camera_folder_name] ++ [n]) = true := by
  intro n hn
  unfold FS.childNames at hn
  rw [List.mem_filterMap] at hn
  obtain ⟨p, hp, hcn⟩ := hn
  unfold childName at hcn
  by_cases hdl : p.dropLast = path ++ [camera_folder_name]
  · rw [if_pos hdl] at hcn
    have hp_eq : p = path ++ [camera_folder_name] ++ [n] := by
      have := List.dropLast_append_getLast? n hcn
      rw [hdl] at this
      exact this.symm
    rcases List.mem_append.mp hp with hpf | hpd
    · rw [isFile_iff_exists]
      obtain ⟨e, he, hfst⟩ := List.mem_map.mp hpf
      exact ⟨e.2, by rw [← hp_eq, ← hfst]; exact he⟩
    · exact absurd hdl (hnosub p hpd)
  · rw [if_neg hdl] at hcn
    exact absurd hcn (by simp)

theorem camera_not_prefix_of_target {path : FsPath} {n : String}
    (hn : n ≠ camera_folder_name) :
    List.isPrefixOf (path ++ [camera_folder_name]) (path ++ [n]) = false := by
  rw [← Bool.not_eq_true, List.isPrefixOf_iff_prefix, List.prefix_append_right_inj]
  intro h
  rcases List.cons_prefix_cons.mp h with ⟨heq, _⟩
  exact hn heq.symm

/-- C5: filesystem failures propagate uncaught out of
`remove_camera_folder`: if some rename in the loop fails with error `e`,
the whole call returns `e`; if all renames succeed, the call returns
exactly the (possibly failing) result of removing the camera folder —
no branch catches or recovers from a filesystem error. -/
theorem remove_camera_folder_error_propagation (fs : FS) (path : FsPath) :
    (∀ e, renameLoop path (fs.globStar (path ++ [camera_folder_name])) fs = .error e →
      remove_camera_folder fs path = .error e) ∧
    (∀ fs₁, renameLoop path (fs.globStar (path ++ [camera_folder_name])) fs = .ok fs₁ →
      remove_camera_folder fs path = fs₁.rmtree (path ++ [camera_folder_name])) := by
  constructor
  · intro e h
    unfold remove_camera_folder
    rw [h]
  · intro fs₁ h
    unfold remove_camera_folder
    rw [h]


theorem remove_camera_folder_error_witness :
    remove_camera_folder renameFailFS ["v"] = .error .isDirectory :=
  (remove_camera_folder_error_propagation renameFailFS ["v"]).1 .isDirectory rfl

/-- C3 fails as stated: a hidden file directly inside the camera folder
(the `*` pattern of `glob` skips names starting with a dot) is deleted
by the final `rmtree` instead of being moved next to the camera folder. -/
theorem remove_camera_folder_hidden_counterexample :
    FS.isFile hiddenFileFS (["v", "00000"] ++ [".hidden"]) = true ∧
    remove_camera_folder hiddenFileFS ["v"] = .ok ⟨[], [["v"]]⟩ ∧
    FS.isFile ⟨[], [["v"]]⟩ (["v"] ++ [basename ["v", "00000", ".hidden"]]) = false :=
  ⟨rfl, rfl, rfl⟩

/-- C3 (amended): for every file directly inside the `00000` subfolder
whose name does not start with a dot, after a successful
`remove_camera_folder(path)` that file exists at `path` joined with its
basename, and the `00000` subfolder no longer exists; hidden files are
deleted with the folder rather than moved. -/
theorem remove_camera_folder_moves_files (fs : FS) (path : FsPath)
    (hdir : fs.isDir (path ++ [camera_folder_name]) = true)
    (hnd : (fs.childNames (path ++ [camera_folder_name])).Nodup)
    (hnosub : ∀ p ∈ fs.dirs, p.dropLast ≠ path ++ [camera_folder_name])
    (htgt : ∀ n ∈ fs.childNames (path ++ [camera_folder_name]),
      fs.isDir (path ++ [n]) = false) :
    ∃ fs' : FS, remove_camera_folder fs path = .ok fs' ∧
      (∀ n ∈ fs.childNames (path ++ [camera_folder_name]),
        pyStartsWith n "." = false →
        fs'.isFile (path ++ [basename (path ++ [camera_folder_name] ++ [n])]) = true) ∧
      fs'.isDir (path ++ [camera_folder_name]) = false := by
  set cam := path ++ [camera_folder_name] with hcam
  set ns := (fs.childNames cam).filter (fun n => ¬ pyStartsWith n ".") with hns
  have hsub : ∀ n ∈ ns, n ∈ fs.childNames cam := fun n hn => List.mem_of_mem_filter hn
  obtain ⟨fs₁, hloop, hdirs₁, hmoved, _⟩ :=
    renameLoop_ok path ns fs (hnd.filter _)
      (fun n hn => childNames_are_files hnosub n (hsub n hn))
      (fun n hn => htgt n (hsub n hn))
  have hglob : fs.globStar cam
      = ns.map (fun n => path ++ [camera_folder_name] ++ [n]) := by
    unfold FS.globStar
    rw [hdir]
    rfl
  have hdir₁ : fs₁.isDir cam = true := by
    rw [isDir_congr hdirs₁]
    exact hdir
  have hrm : fs₁.rmtree cam
      = .ok ⟨fs₁.files.filter (fun e => ¬ cam.isPrefixOf e.1),
          fs₁.dirs.filter (fun p => ¬ cam.isPrefixOf p)⟩ := by
    unfold FS.rmtree
    rw [hdir₁]
    rfl
  refine ⟨⟨fs₁.files.filter (fun e => ¬ cam.isPrefixOf e.1),
      fs₁.dirs.filter (fun p => ¬ cam.isPrefixOf p)⟩, ?_, ?_, ?_⟩
  · unfold remove_camera_folder
    rw [← hcam, hglob, hloop]
    exact hrm
  · intro n hn hhid
    have hnn : n ∈ ns := by
      rw [hns, List.mem_filter]
      exact ⟨hn, by simp [hhid]⟩
    have hbase : basename (cam ++ [n]) = n := List.getLastD_concat _ _ _
    rw [hcam] at hbase ⊢
    rw [hbase]
    have hfile₁ : fs₁.isFile (path ++ [n]) = true := hmoved n hnn
    have hncfn : n ≠ camera_folder_name := by
      intro h
      have h2 := htgt n hn
      rw [h, ← hcam, hdir] at h2
      simp at h2
    rw [isFile_iff_exists] at hfile₁ ⊢
    obtain ⟨c, hc⟩ := hfile₁
    refine ⟨c, ?_⟩
    show (path ++ [n], c) ∈ fs₁.files.filter (fun e => ¬ cam.isPrefixOf e.1)
    rw [List.mem_filter]
    refine ⟨hc, ?_⟩
    rw [hcam]
    simp [camera_not_prefix_of_target hncfn]
  · show List.contains (fs₁.dirs.filter (fun p => ¬ cam.isPrefixOf p)) cam = false
    simp [List.contains, List.mem_filter, List.prefix_refl]

theorem remove_camera_folder_moves_witness :
    ∃ fs' : FS, remove_camera_folder twoFileFS ["v"] = .ok fs' ∧
      (∀ n ∈ twoFileFS.childNames (["v"] ++ [camera_folder_name]),
        pyStartsWith n "." = false →
        fs'.isFile (["v"] ++ [basename (["v"] ++ [camera_folder_name] ++ [n])]) = true) ∧
      fs'.isDir (["v"] ++ [camera_folder_name]) = false :=
  remove_camera_folder_moves_files twoFileFS ["v"] (by decide) (by decide)
    (by decide) (by decide)

/-! ### The evaluation driver's effect order -/

theorem foldl_append_eq_join {α β : Type} (f : α → List β) (l : List α)
    (acc : List β) :
    l.foldl (fun acc i => acc ++ f i) acc = acc ++ (l.map f).join := by
  induction l generalizing acc with
  | nil => simp
  | cons x xs ih => simp [ih, List.append_assoc]

/-- C6: `reconstruct_dataset` processes the batches in order — for each
batch, inference, then output-path rewriting, then folder creation, then
image writing — and only after the whole batch loop shells out exactly
once to rsync, as the final event. -/
theorem reconstruct_dataset_order (n : Nat) :
    reconstruct_dataset_trace n
      = ((List.range n).map batchEvents).join ++ [.rsync] ∧
    (reconstruct_dataset_trace n).count .rsync = 1 ∧
    (reconstruct_dataset_trace n).getLast? = some .rsync ∧
    (∀ i, i < n → List.Sublist (batchEvents i) (reconstruct_dataset_trace n)) := by
  have htr : reconstruct_dataset_trace n
      = ((List.range n).map batchEvents).join ++ [.rsync] := by
    unfold reconstruct_dataset_trace
    rw [foldl_append_eq_join]
    simp
  refine ⟨htr, ?_, ?_, ?_⟩
  · rw [htr, List.count_append]
    have h0 : (((List.range n).map batchEvents).join).count EvalEvent.rsync = 0 := by
      rw [List.count_eq_zero]
      intro hmem
      obtain ⟨l, hl, hml⟩ := List.mem_join.mp hmem
      obtain ⟨i, _, rfl⟩ := List.mem_map.mp hl
      simp [batchEvents] at hml
    rw [h0]
    rfl
  · rw [htr]
    exact List.getLast?_concat _
  · intro i hi
    rw [htr]
    have h1 : List.Sublist (batchEvents i) (((List.range n).map batchEvents).join) :=
      List.sublist_join (List.mem_map.mpr ⟨i, List.mem_range.mpr hi, rfl⟩)
    exact h1.trans (List.sublist_append_left _ _)

theorem reconstruct_dataset_order_witness :
    List.Sublist (batchEvents 0) (reconstruct_dataset_trace 2) ∧
    (reconstruct_dataset_trace 2).count .rsync = 1 :=
  ⟨(reconstruct_dataset_order 2).2.2.2 0 (by decide),
    (reconstruct_dataset_order 2).2.1⟩

/-! ### The command-line boundary of the flattening script -/

/-- C7: the script's parser requires the single option `--directory`: an
empty invocation fails with the "required" message, any invocation made
only of plain (non-option) tokens fails at parsing, and
`--directory VALUE` parses to exactly that value. -/
theorem parseArgs_directory_required :
    parseArgs [] = .error "the following arguments are required: --directory" ∧
    (∀ args : List String, (∀ a ∈ args, pyStartsWith a "-" = false) →
      ∃ msg, parseArgs args = .error msg) ∧
    (∀ d : String, pyStartsWith d "-" = false →
      parseArgs ["--directory", d] = .ok d) := by
  refine ⟨rfl, ?_, ?_⟩
  · intro args h
    cases args with
    | nil => exact ⟨_, rfl⟩
    | cons a rest =>
      have ha := h a (List.mem_cons_self a rest)
      have hne : a ≠ "--directory" := by
        intro he
        rw [he] at ha
        exact absurd ha (by decide)
      have hne2 : pyStartsWith a "--directory=" = false := by
        by_contra hc
        rw [Bool.not_eq_false] at hc
        have hc' : ("--directory=").data <+: a.data := by
          simpa [pyStartsWith] using hc
        have h1 : ("-").data <+: ("--directory=").data :=
          List.isPrefixOf_iff_prefix.mp (by decide)
        have h2 : pyStartsWith a "-" = true := by
          simp only [pyStartsWith, List.isPrefixOf_iff_prefix]
          exact h1.trans hc'
        rw [ha] at h2
        simp at h2
      refine ⟨"unrecognized arguments: " ++ a, ?_⟩
      show parse_directory_args (a :: rest) none = _
      rw [parse_directory_args.eq_def]
      simp [hne, hne2]
  · intro d hd
    rw [parseArgs, parse_directory_args.eq_def]
    simp [hd, parse_directory_args]

theorem parseArgs_witness :
    parseArgs ["--directory", "/data"] = .ok "/data" ∧
    (∃ msg, parseArgs ["junk"] = .error msg) :=
  ⟨parseArgs_directory_required.2.2 "/data" (by decide),
    parseArgs_directory_required.2.1 ["junk"] (by decide)⟩

/-! ### `use_first_observation` broadcasts the first observation -/

theorem join_replicate_singleton {α : Type} (n : Nat) (x : α) :
    (List.replicate n [x]).join = List.replicate n x := by
  induction n with
  | zero => rfl
  | succ n ih => simp [List.replicate_succ, ih]

theorem getD_replicate_lt {α : Type} (d x : α) {n j : Nat} (h : j < n) :
    (List.replicate n x).getD j d = x := by
  have hl : j < (List.replicate n x).length := by simpa using h
  simp [List.getD_eq_getElem?_getD, List.getElem?_eq_getElem hl]

/-- On a non-empty rectangular batch with `n ≥ 1` observations,
`use_first_observation` replaces every row by `n` copies of its first
entry. -/
theorem use_first_observation_eq {α : Type} (d : α) {t : List (List α)} {n : Nat}
    (hne : t ≠ []) (hrect : ∀ r ∈ t, r.length = n) (hn : 1 ≤ n) :
    use_first_observation t = t.map (fun r => List.replicate n (r.getD 0 d)) := by
  obtain ⟨r₀, rest, rfl⟩ := List.exists_cons_of_ne_nil hne
  have hobs : r₀.length = n := hrect r₀ (List.mem_cons_self _ _)
  simp only [use_first_observation, List.headD_cons, List.map_map, hobs]
  apply List.map_congr_left
  intro r hr
  have hrn : r.length = n := hrect r hr
  cases r with
  | nil =>
    rw [List.length_nil] at hrn
    omega
  | cons x xs =>
    simp [join_replicate_singleton]

/-- C9: on every non-empty rectangular tensor with at least one
observation along dimension 1, `use_first_observation` preserves the
shape, every slice along dimension 1 of the result equals the input's
first slice, and the operation is idempotent. -/
theorem use_first_observation_correct {α : Type} (d : α) (t : List (List α))
    (n : Nat) (hne : t ≠ []) (hrect : ∀ r ∈ t, r.length = n) (hn : 1 ≤ n) :
    (use_first_observation t).length = t.length ∧
    (∀ r ∈ use_first_observation t, r.length = n) ∧
    (∀ i j, i < t.length → j < n →
      ((use_first_observation t).getD i []).getD j d = (t.getD i []).getD 0 d) ∧
    use_first_observation (use_first_observation t) = use_first_observation t := by
  have hchar := use_first_observation_eq d hne hrect hn
  refine ⟨by rw [hchar]; simp, ?_, ?_, ?_⟩
  · intro r hr
    rw [hchar] at hr
    obtain ⟨s, _, rfl⟩ := List.mem_map.mp hr
    simp
  · intro i j hi hj
    rw [hchar, getD_map_lt [] [] hi, getD_replicate_lt d _ hj]
  · rw [hchar]
    have hne' : t.map (fun r => List.replicate n (r.getD 0 d)) ≠ [] := by
      simpa using hne
    have hrect' : ∀ r ∈ t.map (fun r => List.replicate n (r.getD 0 d)),
        r.length = n := by
      intro r hr
      obtain ⟨s, _, rfl⟩ := List.mem_map.mp hr
      simp
    rw [use_first_observation_eq d hne' hrect' hn, List.map_map]
    apply List.map_congr_left
    intro r _
    rw [Function.comp_apply, getD_replicate_lt d _ hn]

theorem use_first_observation_witness :
    (use_first_observation [[1, 2], [3, 4]]).length = 2 ∧
    ((use_first_observation [[1, 2], [3, 4]]).getD 1 []).getD 1 0
      = ([[1, 2], [3, 4]].getD 1 []).getD 0 0 ∧
    use_first_observation (use_first_observation [[1, 2], [3, 4]])
      = use_first_observation [[1, 2], [3, 4]] := by
  have h := use_first_observation_correct 0 [[1, 2], [3, 4]] 2
    (by decide) (by decide) (by decide)
  exact ⟨h.1, h.2.2.1 1 1 (by decide) (by decide), h.2.2.2⟩

/-! ### The AdaIn layers -/

theorem mapWithIdx_getElem? {α β : Type} (f : Nat → α → β) :
    ∀ (l : List α) (i j : Nat), (mapWithIdx i f l)[j]? = (l[j]?).map (f (i + j)) := by
  intro l
  induction l with
  | nil => intro i j; simp [mapWithIdx]
  | cons x xs ih =>
    intro i j
    cases j with
    | zero => simp [mapWithIdx]
    | succ j =>
      have harith : i + 1 + j = i + (j + 1) := by omega
      simp [mapWithIdx, ih (i + 1) j, harith]

theorem mapWithIdx_length {α β : Type} (f : Nat → α → β) :
    ∀ (l : List α) (i : Nat), (mapWithIdx i f l).length = l.length := by
  intro l
  induction l with
  | nil => intro i; rfl
  | cons x xs ih => intro i; simp [mapWithIdx, ih]

/-- C10: at construction, `AffineTransformAdaIn` initializes the bias of
its affine transform so that the first `in_features` entries (the scale
parameters) are 1 and the remaining `in_features` entries (the bias
parameters) are 0, whatever bias vector `nn.Linear` had created. -/
theorem affine_transform_bias_init_eq (in_features : Nat) (b0 : List ℝ)
    (h : b0.length = 2 * in_features) :
    affine_transform_bias_init in_features b0
      = List.replicate in_features 1 ++ List.replicate in_features 0 := by
  apply List.ext_getElem?
  intro j
  simp only [affine_transform_bias_init, sliceAssign, mapWithIdx_length, h]
  rw [mapWithIdx_getElem?, mapWithIdx_getElem?]
  rcases Nat.lt_or_ge j in_features with hj1 | hj1
  · have hjlen : j < b0.length := by omega
    rw [List.getElem?_eq_getElem hjlen, List.getElem?_append_left
      (show j < (List.replicate in_features (1:ℝ)).length by simpa using hj1)]
    simp [hj1, Nat.not_le.mpr hj1]
  · rcases Nat.lt_or_ge j (2 * in_features) with hj2 | hj2
    · have hjlen : j < b0.length := by omega
      rw [List.getElem?_eq_getElem hjlen, List.getElem?_append_right
        (show (List.replicate in_features (1:ℝ)).length ≤ j by simpa using hj1)]
      simp [hj1, hj2, Nat.not_lt.mpr hj1]
      rw [List.getElem?_replicate_of_lt (by omega)]
    · have hnone : b0[j]? = none := List.getElem?_eq_none (by omega)
      rw [hnone]
      rw [List.getElem?_eq_none (by simp; omega)]
      rfl

theorem affine_transform_bias_init_witness :
    affine_transform_bias_init 2 [5, 6, 7, 8] = [1, 1, 0, 0] := by
  rw [affine_transform_bias_init_eq 2 [5, 6, 7, 8] (by decide)]
  rfl

theorem getD_zipWith_lt {α β γ : Type} (d₁ : α) (d₂ : β) (d₃ : γ) (f : α → β → γ)
    {l₁ : List α} {l₂ : List β} {i : Nat} (h₁ : i < l₁.length) (h₂ : i < l₂.length) :
    (List.zipWith f l₁ l₂).getD i d₃ = f (l₁.getD i d₁) (l₂.getD i d₂) := by
  simp [List.getD_eq_getElem?_getD, List.getElem?_zipWith,
    List.getElem?_eq_getElem h₁, List.getElem?_eq_getElem h₂]

theorem getD_mem {α : Type} (d : α) {l : List α} {i : Nat} (h : i < l.length) :
    l.getD i d ∈ l := by
  rw [List.getD_eq_getElem?_getD, List.getElem?_eq_getElem h]
  exact List.getElem_mem h

theorem batchNorm1d_getD {x : List (List ℝ)} {i : Nat} (h : i < x.length) :
    (batchNorm1d x).getD i []
      = mapWithIdx 0
          (fun j v => (v - colMean x j) / Real.sqrt (colVar x j + batchNormEps))
          (x.getD i []) := by
  unfold batchNorm1d
  exact getD_map_lt [] [] h

/-- Entrywise description of `AdaIn.forward` on matching shapes. -/
theorem AdaIn_entry (input scale bias : List (List ℝ)) (n : Nat)
    (hbs1 : scale.length = input.length) (hbs2 : bias.length = input.length)
    (hrin : ∀ r ∈ input, r.length = n) (hrs : ∀ r ∈ scale, r.length = n)
    (hrb : ∀ r ∈ bias, r.length = n)
    {i j : Nat} (hi : i < input.length) (hj : j < n) :
    ((AdaIn_forward input scale bias).getD i []).getD j 0
      = ((batchNorm1d input).getD i []).getD j 0 * (scale.getD i []).getD j 0
        + (bias.getD i []).getD j 0 := by
  have hbn_len : (batchNorm1d input).length = input.length := by simp [batchNorm1d]
  have hbn_row : ((batchNorm1d input).getD i []).length = n := by
    rw [batchNorm1d_getD hi, mapWithIdx_length]
    exact hrin _ (getD_mem [] hi)
  have hs_row : (scale.getD i []).length = n := hrs _ (getD_mem [] (by omega))
  have hb_row : (bias.getD i []).length = n := hrb _ (getD_mem [] (by omega))
  show ((tadd (tmul (batchNorm1d input) scale) bias).getD i []).getD j 0 = _
  have hmul_len : (tmul (batchNorm1d input) scale).length = input.length := by
    simp [tmul, hbn_len, hbs1]
  rw [tadd, getD_zipWith_lt [] [] [] _ (by omega) (by omega)]
  rw [tmul, getD_zipWith_lt [] [] [] _ (by omega) (by omega)]
  rw [getD_zipWith_lt (0:ℝ) (0:ℝ) (0:ℝ) _
    (by rw [List.length_zipWith]; omega) (by omega)]
  rw [getD_zipWith_lt (0:ℝ) (0:ℝ) (0:ℝ) _ (by omega) (by omega)]

/-- C4: `AdaIn.forward(input, scale, bias)` is the batch-normalized
input rescaled elementwise — normalization first, then `* scale + bias` —
at every entry, with the input's shape preserved. -/
theorem AdaIn_forward_correct (input scale bias : List (List ℝ)) (n : Nat)
    (hbs1 : scale.length = input.length) (hbs2 : bias.length = input.length)
    (hrin : ∀ r ∈ input, r.length = n) (hrs : ∀ r ∈ scale, r.length = n)
    (hrb : ∀ r ∈ bias, r.length = n) :
    (AdaIn_forward input scale bias).length = input.length ∧
    ∀ i j, i < input.length → j < n →
      ((AdaIn_forward input scale bias).getD i []).getD j 0
        = ((batchNorm1d input).getD i []).getD j 0 * (scale.getD i []).getD j 0
          + (bias.getD i []).getD j 0 := by
  constructor
  · simp [AdaIn_forward, tadd, tmul, batchNorm1d, hbs1, hbs2]
  · intro i j hi hj
    exact AdaIn_entry input scale bias n hbs1 hbs2 hrin hrs hrb hi hj

theorem AdaIn_forward_witness :
    ((AdaIn_forward [[1], [3]] [[2], [5]] [[7], [11]]).getD 0 []).getD 0 0
      = ((batchNorm1d [[1], [3]]).getD 0 []).getD 0 0 * 2 + 7 :=
  (AdaIn_forward_correct [[1], [3]] [[2], [5]] [[7], [11]] 1 (by decide) (by decide)
    (by decide) (by decide) (by decide)).2 0 0 (by decide) (by decide)

/-- C1 (amended): `AffineTransformAdaIn.forward` applies batch
normalization to the input first and the style-conditioned affine
transform after: at every entry, the output is the batch-normalized
activation multiplied by the scale (entry `j` of the learned affine
transform of the style row) plus the bias (entry `in_features + j`). -/
theorem AffineTransformAdaIn_forward_correct (in_features : Nat)
    (W : List (List ℝ)) (b : List ℝ) (input style : List (List ℝ))
    (hsty : style.length = input.length)
    (hrin : ∀ r ∈ input, r.length = in_features)
    (hW : W.length = 2 * in_features) (hb : b.length = 2 * in_features) :
    (AffineTransformAdaIn_forward in_features W b input style).length
      = input.length ∧
    ∀ i j, i < input.length → j < in_features →
      ((AffineTransformAdaIn_forward in_features W b input style).getD i []).getD j 0
        = ((batchNorm1d input).getD i []).getD j 0
            * (linearRow W b (style.getD i [])).getD j 0
          + (linearRow W b (style.getD i [])).getD (in_features + j) 0 := by
  have henc_row : ∀ s : List ℝ, (linearRow W b s).length = 2 * in_features := by
    intro s
    simp [linearRow, hW, hb]
  have hs_len : (style.map (linearRow W b) |>.map
      (fun r => r.take in_features)).length = input.length := by
    simp [hsty]
  have hb_len : (style.map (linearRow W b) |>.map
      (fun r => r.drop in_features)).length = input.length := by
    simp [hsty]
  have hs_rows : ∀ r ∈ (style.map (linearRow W b) |>.map
      (fun r => r.take in_features)), r.length = in_features := by
    intro r hr
    obtain ⟨s, hs, rfl⟩ := List.mem_map.mp hr
    obtain ⟨s', _, rfl⟩ := List.mem_map.mp hs
    simp [henc_row s']
    omega
  have hb_rows : ∀ r ∈ (style.map (linearRow W b) |>.map
      (fun r => r.drop in_features)), r.length = in_features := by
    intro r hr
    obtain ⟨s, hs, rfl⟩ := List.mem_map.mp hr
    obtain ⟨s', _, rfl⟩ := List.mem_map.mp hs
    simp [henc_row s']
    omega
  constructor
  · show (AdaIn_forward input _ _).length = input.length
    simp [AdaIn_forward, tadd, tmul, batchNorm1d, hs_len, hb_len]
    omega
  · intro i j hi hj
    show ((AdaIn_forward input _ _).getD i []).getD j 0 = _
    rw [AdaIn_entry input _ _ in_features hs_len hb_len hrin hs_rows hb_rows hi hj]
    have hist : i < style.length := by omega
    have henc_map : ∀ g : List ℝ → List ℝ,
        ((style.map (linearRow W b) |>.map g).getD i [])
          = g (linearRow W b (style.getD i [])) := by
      intro g
      rw [getD_map_lt [] [] (by simpa using hist), getD_map_lt [] [] hist]
    rw [henc_map, henc_map]
    congr 1
    · congr 1
      simp only [List.getD_eq_getElem?_getD]
      rw [List.getElem?_take_of_lt hj]
    · simp only [List.getD_eq_getElem?_getD]
      rw [List.getElem?_drop]

theorem AffineTransformAdaIn_forward_witness :
    ((AffineTransformAdaIn_forward 1 [[0], [1]] [1, 0] [[0], [2]] [[0], [2]]).getD
        1 []).getD 0 0
      = ((batchNorm1d [[0], [2]]).getD 1 []).getD 0 0
          * (linearRow [[0], [1]] [1, 0] ([[0], [2]].getD 1 [])).getD 0 0
        + (linearRow [[0], [1]] [1, 0] ([[0], [2]].getD 1 [])).getD 1 0 :=
  (AffineTransformAdaIn_forward_correct 1 [[0], [1]] [1, 0] [[0], [2]] [[0], [2]]
    (by decide) (by decide) (by decide) (by decide)).2 1 0 (by decide) (by decide)

/-- C1 fails as stated: with `in_features = 1`, weight `[[0], [1]]`, the
initialized bias `[1, 0]`, input batch `[[0], [2]]` and style batch
`[[0], [2]]`, applying the style-conditioned affine transformation to
the activations and batch normalization afterwards differs from what
`AffineTransformAdaIn.forward` computes (normalization first). -/
theorem AffineTransformAdaIn_claimed_order_counterexample :
    claimed_AffineTransformAdaIn_forward 1 [[0], [1]] [1, 0] [[0], [2]] [[0], [2]]
      ≠ AffineTransformAdaIn_forward 1 [[0], [1]] [1, 0] [[0], [2]] [[0], [2]] := by
  intro h
  have h10 := congrArg (fun l => (l.getD 1 []).getD 0 (0 : ℝ)) h
  simp only [claimed_AffineTransformAdaIn_forward, AffineTransformAdaIn_forward,
    AdaIn_forward, linearRow, tmul, tadd, batchNorm1d, colMean, colVar, batchNormEps,
    mapWithIdx, List.zipWith, List.map, List.sum_cons, List.sum_nil, List.take,
    List.drop, List.getD_cons_zero, List.getD_cons_succ, List.length_cons,
    List.length_nil] at h10
  norm_num at h10
  have h0 : (0:ℝ) < Real.sqrt 100000 := Real.sqrt_pos.mpr (by norm_num)
  have h3 : 2 * Real.sqrt 100000 < Real.sqrt 400001 := by
    have h4 : (2:ℝ) = Real.sqrt 4 := by
      rw [show (4:ℝ) = 2 ^ 2 by norm_num, Real.sqrt_sq (by norm_num)]
    rw [h4, ← Real.sqrt_mul (by norm_num)]
    exact Real.sqrt_lt_sqrt (by norm_num) (by norm_num)
  have hlhs : 2 / (Real.sqrt 400001 / Real.sqrt 100000) < 1 := by
    rw [div_lt_one (by positivity), lt_div_iff h0]
    linarith
  have hrhs : (0:ℝ) < Real.sqrt 100000 / Real.sqrt 100001 := by positivity
  linarith

end PlayableEnvironments
